import Mathlib

/-!
Shallow embedding of `src/periodontitis/src/preprocessing.py`, function
`k_cfdo_enhancement(image, rho=0.5, k=1.5)`.

Modelling conventions:
* a 2-D numpy buffer is a `List (List ℝ)` (row-major, rectangular in practice);
  `astype(np.float64)` on a numeric buffer is the identity on this model;
* `numpy` float arithmetic is modelled over `ℝ`; samples of a grayscale image
  are nonnegative, and for nonnegative bases `r ** e` agrees with `Real.rpow`
  (`0 ** 0 = 1`, `0 ** e = 0` for `e > 0`, `exp (e * log r)` for `r > 0`);
* the elementwise numpy division in the normalization step does NOT raise on a
  zero denominator: it silently produces a non-finite value (here the
  denominator is zero exactly when every numerator is zero, so the non-finite
  value is NaN).  `npdiv` returns `none` for that silent NaN;
* Python scalar float division (`(1 - rho) / k` inside the loop) DOES raise
  `ZeroDivisionError` when `k == 0`, and `img.max()` raises `ValueError` on an
  empty buffer; raised exceptions are modelled with `Except PyErr`;
* `astype(np.uint8)` on a value of `[0, 255]` truncates toward zero; casting a
  NaN to `uint8` has no defined result, so `toUint8 none = none`.
-/

namespace DeepDent

/-- Exception kinds relevant to the embedded function: `zeroDivisionError` and
`valueError` are the Python exceptions the code can actually raise;
`invalidParameter` is the error kind named by the specification (no code path
produces it). -/
inductive PyErr
  | zeroDivisionError
  | valueError
  | invalidParameter
  deriving DecidableEq

/-- Row-major flattening of a 2-D buffer, as numpy reductions (`.max()`,
`.min()`) range over all entries. -/
def flatten2 {α : Type} (img : List (List α)) : List α := img.flatten

/-- Maximum entry of a buffer, as computed by numpy `.max()`; the `[]` case is
unreachable in the pipeline (numpy raises `ValueError` there first). -/
noncomputable def listMax : List ℝ → ℝ
  | [] => 0
  | x :: xs => xs.foldl max x

/-- Minimum entry of a buffer, as computed by numpy `.min()`. -/
noncomputable def listMin : List ℝ → ℝ
  | [] => 0
  | x :: xs => xs.foldl min x

/-- Elementwise numpy float division: a zero denominator silently yields a
non-finite value (NaN here, since in the pipeline the numerator is zero
whenever the denominator is), modelled as `none`. -/
noncomputable def npdiv (a b : ℝ) : Option ℝ :=
  if b = 0 then none else some (a / b)

/-- Lines 25-27 of `preprocessing.py`: `img = image.astype(np.float64)` then
`if img.max() > 1.0: img = img / 255.0`. -/
noncomputable def toWorking (image : List (List ℝ)) : List (List ℝ) :=
  if listMax (flatten2 image) > 1 then
    image.map (List.map (fun x => x / 255))
  else image

/-- Lines 33-37 of `preprocessing.py`, body of the per-pixel loop:
`enhanced_img[i, j] = img[i, j] * (r ** ((1 - rho) / k) / special.gamma(2 - rho / k))`
with `r = img[i, j]`. -/
noncomputable def pixelEnhance (rho k r : ℝ) : ℝ :=
  r * (r ^ ((1 - rho) / k) / Real.Gamma (2 - rho / k))

/-- The pre-normalization `enhanced_img` buffer produced by the double loop. -/
noncomputable def enhancedBuf (image : List (List ℝ)) (rho k : ℝ) : List (List ℝ) :=
  (toWorking image).map (List.map (pixelEnhance rho k))

/-- Line 39 of `preprocessing.py`:
`enhanced_img = (enhanced_img - enhanced_img.min()) / (enhanced_img.max() - enhanced_img.min())`. -/
noncomputable def normalizeStep (enh : List (List ℝ)) : List (List (Option ℝ)) :=
  enh.map (List.map (fun x =>
    npdiv (x - listMin (flatten2 enh)) (listMax (flatten2 enh) - listMin (flatten2 enh))))

/-- Line 40 of `preprocessing.py`: `(enhanced_img * 255).astype(np.uint8)` on
one entry.  For an entry of `[0, 1]` the product lies in `[0, 255]` and the
cast truncates toward zero; the cast of a NaN entry has no defined result. -/
noncomputable def toUint8 : Option ℝ → Option ℕ
  | none => none
  | some x => some (Int.toNat ⌊x * 255⌋)

/-- The whole of `k_cfdo_enhancement`.  `img.max()` raises `ValueError` on an
empty buffer; with a nonempty buffer, the first loop iteration evaluates
`(1 - rho) / k`, which raises `ZeroDivisionError` when `k = 0`; otherwise the
enhanced buffer is min-max normalized and cast to `uint8`. -/
noncomputable def k_cfdo_enhancement (image : List (List ℝ)) (rho k : ℝ) :
    Except PyErr (List (List (Option ℕ))) :=
  if flatten2 image = [] then .error .valueError
  else if k = 0 then .error .zeroDivisionError
  else .ok ((normalizeStep (enhancedBuf image rho k)).map (List.map toUint8))

/-- Specification-side formula of section 4.1, step 3:
`enhanced[i,j] = r * ( r^((1-rho)/k) / Γ(2 - rho/k) )`, written independently
of the code to compare the two. -/
noncomputable def specEnhancedFormula (rho k r : ℝ) : ℝ :=
  r * (r ^ ((1 - rho) / k) / Real.Gamma (2 - rho / k))

/-! ### Fold lemmas for `listMax` and `listMin` -/

theorem le_foldl_max (xs : List ℝ) : ∀ x : ℝ, x ≤ xs.foldl max x := by
  induction xs with
  | nil => intro x; simp
  | cons a l ih =>
      intro x
      exact le_trans (le_max_left x a) (ih (max x a))

theorem foldl_min_le (xs : List ℝ) : ∀ x : ℝ, xs.foldl min x ≤ x := by
  induction xs with
  | nil => intro x; simp
  | cons a l ih =>
      intro x
      exact le_trans (ih (min x a)) (min_le_left x a)

theorem le_foldl_max_of_mem (xs : List ℝ) : ∀ x y : ℝ, y ∈ xs → y ≤ xs.foldl max x := by
  induction xs with
  | nil => intro x y hy; simp at hy
  | cons a l ih =>
      intro x y hy
      rcases List.mem_cons.mp hy with h | h
      · subst h
        exact le_trans (le_max_right x y) (le_foldl_max l (max x y))
      · exact ih (max x a) y h

theorem foldl_min_le_of_mem (xs : List ℝ) : ∀ x y : ℝ, y ∈ xs → xs.foldl min x ≤ y := by
  induction xs with
  | nil => intro x y hy; simp at hy
  | cons a l ih =>
      intro x y hy
      rcases List.mem_cons.mp hy with h | h
      · subst h
        exact le_trans (foldl_min_le l (min x y)) (min_le_right x y)
      · exact ih (min x a) y h

theorem foldl_max_mem (xs : List ℝ) : ∀ x : ℝ, xs.foldl max x ∈ x :: xs := by
  induction xs with
  | nil => intro x; simp
  | cons a l ih =>
      intro x
      have h := ih (max x a)
      rcases List.mem_cons.mp h with h1 | h1
      · rcases max_choice x a with hc | hc
        · rw [List.foldl_cons, h1, hc]; exact List.mem_cons_self x (a :: l)
        · rw [List.foldl_cons, h1, hc]
          exact List.mem_cons_of_mem x (List.mem_cons_self a l)
      · rw [List.foldl_cons]
        exact List.mem_cons_of_mem x (List.mem_cons_of_mem a h1)

theorem foldl_min_mem (xs : List ℝ) : ∀ x : ℝ, xs.foldl min x ∈ x :: xs := by
  induction xs with
  | nil => intro x; simp
  | cons a l ih =>
      intro x
      have h := ih (min x a)
      rcases List.mem_cons.mp h with h1 | h1
      · rcases min_choice x a with hc | hc
        · rw [List.foldl_cons, h1, hc]; exact List.mem_cons_self x (a :: l)
        · rw [List.foldl_cons, h1, hc]
          exact List.mem_cons_of_mem x (List.mem_cons_self a l)
      · rw [List.foldl_cons]
        exact List.mem_cons_of_mem x (List.mem_cons_of_mem a h1)

theorem le_listMax {l : List ℝ} {y : ℝ} (hy : y ∈ l) : y ≤ listMax l := by
  cases l with
  | nil => simp at hy
  | cons a l =>
      simp only [listMax]
      rcases List.mem_cons.mp hy with h | h
      · subst h; exact le_foldl_max l y
      · exact le_foldl_max_of_mem l a y h

theorem listMin_le {l : List ℝ} {y : ℝ} (hy : y ∈ l) : listMin l ≤ y := by
  cases l with
  | nil => simp at hy
  | cons a l =>
      simp only [listMin]
      rcases List.mem_cons.mp hy with h | h
      · subst h; exact foldl_min_le l y
      · exact foldl_min_le_of_mem l a y h

theorem listMax_mem {l : List ℝ} (hl : l ≠ []) : listMax l ∈ l := by
  cases l with
  | nil => exact absurd rfl hl
  | cons a l =>
      simp only [listMax]
      exact foldl_max_mem l a

theorem listMin_mem {l : List ℝ} (hl : l ≠ []) : listMin l ∈ l := by
  cases l with
  | nil => exact absurd rfl hl
  | cons a l =>
      simp only [listMin]
      exact foldl_min_mem l a

theorem listMin_le_listMax {l : List ℝ} (hl : l ≠ []) : listMin l ≤ listMax l :=
  le_trans (listMin_le (listMax_mem hl)) (le_refl _)

/-! ### Monotone maps commute with the fold extrema -/

theorem foldl_max_map {f : ℝ → ℝ} (hf : Monotone f) (xs : List ℝ) :
    ∀ x : ℝ, (xs.map f).foldl max (f x) = f (xs.foldl max x) := by
  induction xs with
  | nil => intro x; simp
  | cons a l ih =>
      intro x
      simp only [List.map_cons, List.foldl_cons]
      rw [← hf.map_max]
      exact ih (max x a)

theorem foldl_min_map {f : ℝ → ℝ} (hf : Monotone f) (xs : List ℝ) :
    ∀ x : ℝ, (xs.map f).foldl min (f x) = f (xs.foldl min x) := by
  induction xs with
  | nil => intro x; simp
  | cons a l ih =>
      intro x
      simp only [List.map_cons, List.foldl_cons]
      rw [← hf.map_min]
      exact ih (min x a)

theorem listMax_map {f : ℝ → ℝ} (hf : Monotone f) {l : List ℝ} (hl : l ≠ []) :
    listMax (l.map f) = f (listMax l) := by
  cases l with
  | nil => exact absurd rfl hl
  | cons a l =>
      simp only [List.map_cons, listMax]
      exact foldl_max_map hf l a

theorem listMin_map {f : ℝ → ℝ} (hf : Monotone f) {l : List ℝ} (hl : l ≠ []) :
    listMin (l.map f) = f (listMin l) := by
  cases l with
  | nil => exact absurd rfl hl
  | cons a l =>
      simp only [List.map_cons, listMin]
      exact foldl_min_map hf l a

/-! ### Flattening lemmas -/

theorem flatten2_map {α β : Type} (f : α → β) (L : List (List α)) :
    flatten2 (L.map (List.map f)) = (flatten2 L).map f :=
  (List.map_flatten f L).symm

theorem flatten2_toWorking_ne_nil {image : List (List ℝ)}
    (h : flatten2 image ≠ []) : flatten2 (toWorking image) ≠ [] := by
  unfold toWorking
  split
  · rw [flatten2_map]
    simpa using h
  · exact h

theorem flatten2_enhancedBuf_ne_nil {image : List (List ℝ)} {rho k : ℝ}
    (h : flatten2 image ≠ []) : flatten2 (enhancedBuf image rho k) ≠ [] := by
  unfold enhancedBuf
  rw [flatten2_map]
  simpa using flatten2_toWorking_ne_nil h

/-! ### Pipeline unfolding -/

theorem k_cfdo_eq_ok {image : List (List ℝ)} {rho k : ℝ}
    (hne : flatten2 image ≠ []) (hk : k ≠ 0) :
    k_cfdo_enhancement image rho k =
      .ok ((normalizeStep (enhancedBuf image rho k)).map (List.map toUint8)) := by
  unfold k_cfdo_enhancement
  rw [if_neg hne, if_neg hk]

/-! ### Range of the normalized entries -/

theorem normalized_entry_bounds {enh : List (List ℝ)} (hne : flatten2 enh ≠ [])
    {x t : ℝ} (hx : x ∈ flatten2 enh)
    (ht : npdiv (x - listMin (flatten2 enh))
        (listMax (flatten2 enh) - listMin (flatten2 enh)) = some t) :
    0 ≤ t ∧ t ≤ 1 := by
  unfold npdiv at ht
  by_cases hz : listMax (flatten2 enh) - listMin (flatten2 enh) = 0
  · rw [if_pos hz] at ht
    exact absurd ht (by simp)
  · rw [if_neg hz] at ht
    have hlt : listMin (flatten2 enh) < listMax (flatten2 enh) :=
      lt_of_le_of_ne (listMin_le_listMax hne)
        (fun h => hz (by rw [h, sub_self]))
    have hpos : 0 < listMax (flatten2 enh) - listMin (flatten2 enh) :=
      sub_pos.mpr hlt
    have hteq : (x - listMin (flatten2 enh)) /
        (listMax (flatten2 enh) - listMin (flatten2 enh)) = t :=
      Option.some.inj ht
    subst hteq
    constructor
    · exact div_nonneg (sub_nonneg.mpr (listMin_le hx)) hpos.le
    · exact (div_le_one hpos).mpr (sub_le_sub_right (le_listMax hx) _)

theorem toUint8_some_le {t : ℝ} (h1 : t ≤ 1) {nv : ℕ}
    (h : toUint8 (some t) = some nv) : nv ≤ 255 := by
  simp only [toUint8, Option.some.injEq] at h
  subst h
  rw [Int.toNat_le]
  have h2 : (⌊t * 255⌋ : ℤ) ≤ ⌊(255 : ℝ)⌋ := Int.floor_le_floor (by nlinarith)
  have h3 : ⌊(255 : ℝ)⌋ = (255 : ℤ) := by norm_num
  rw [h3] at h2
  exact_mod_cast h2

/-! ### Claim theorems -/

/-- C1: for every working-buffer sample `r` (after the optional division by
255) and parameters `rho`, `k`, the pre-normalization enhanced value at
position `(i, j)` equals the specification formula
`r * ( r^((1-rho)/k) / Γ(2 - rho/k) )`. -/
theorem pixel_formula_matches_spec (image : List (List ℝ)) (rho k : ℝ)
    (i j : ℕ) (row : List ℝ) (r : ℝ)
    (hi : (toWorking image)[i]? = some row) (hj : row[j]? = some r) :
    ∃ erow : List ℝ, (enhancedBuf image rho k)[i]? = some erow ∧
      erow[j]? = some (specEnhancedFormula rho k r) := by
  refine ⟨row.map (pixelEnhance rho k), ?_, ?_⟩
  · unfold enhancedBuf
    rw [List.getElem?_map, hi]
    rfl
  · rw [List.getElem?_map, hj]
    rfl

theorem pixel_formula_matches_spec_witness :
    ∃ erow : List ℝ, (enhancedBuf [[(1:ℝ)/2]] (1/2) (3/2))[0]? = some erow ∧
      erow[0]? = some (specEnhancedFormula (1/2) (3/2) (1/2)) :=
  pixel_formula_matches_spec [[(1:ℝ)/2]] (1/2) (3/2) 0 0 [(1:ℝ)/2] (1/2)
    (by
      unfold toWorking
      rw [if_neg]
      · rfl
      · show ¬ listMax (flatten2 [[(1:ℝ)/2]]) > 1
        show ¬ (1:ℝ)/2 > 1
        norm_num)
    rfl

/-- C5: the working buffer is divided by 255 exactly when the maximum of the
converted input exceeds 1; otherwise it is the converted input unchanged. -/
theorem division_by_255_iff_max_gt_one (image : List (List ℝ)) :
    (listMax (flatten2 image) > 1 →
      toWorking image = image.map (List.map (fun x => x / 255))) ∧
    (listMax (flatten2 image) ≤ 1 → toWorking image = image) := by
  constructor
  · intro h
    unfold toWorking
    rw [if_pos h]
  · intro h
    unfold toWorking
    rw [if_neg (not_lt.mpr h)]

theorem division_by_255_iff_max_gt_one_witness :
    toWorking [[(2:ℝ)]] = [[(2:ℝ)/255]] ∧ toWorking [[(1:ℝ)/2]] = [[(1:ℝ)/2]] :=
  ⟨((division_by_255_iff_max_gt_one [[(2:ℝ)]]).1
      (by show (2:ℝ) > 1; norm_num)).trans rfl,
   (division_by_255_iff_max_gt_one [[(1:ℝ)/2]]).2
      (by show (1:ℝ)/2 ≤ 1; norm_num)⟩

/-- C9: the min-max normalization step is idempotent on already-normalized
buffers: when the buffer minimum is 0 and the buffer maximum is 1, every
sample is returned unchanged (exactly, over the reals). -/
theorem normalize_idempotent (enh : List (List ℝ))
    (h0 : listMin (flatten2 enh) = 0) (h1 : listMax (flatten2 enh) = 1) :
    normalizeStep enh = enh.map (List.map some) := by
  unfold normalizeStep
  rw [h0, h1]
  simp [npdiv]

theorem normalize_idempotent_witness :
    normalizeStep [[(0:ℝ), 1]] = [[some (0:ℝ), some 1]] :=
  (normalize_idempotent [[(0:ℝ), 1]]
    (by show min (0:ℝ) 1 = 0; exact min_eq_left zero_le_one)
    (by show max (0:ℝ) 1 = 1; exact max_eq_right zero_le_one)).trans rfl

/-- C2 counterexample: at the concrete input `[[100]]`, `rho = 1/2`, `k = 0`,
the function raises `ZeroDivisionError` (from the Python float division
`(1 - rho) / k`), not the `InvalidParameter` error the claim names. -/
theorem k0_not_invalidParameter_counterexample :
    k_cfdo_enhancement [[(100:ℝ)]] (1/2) 0 = .error .zeroDivisionError ∧
    k_cfdo_enhancement [[(100:ℝ)]] (1/2) 0 ≠ .error .invalidParameter := by
  have h : k_cfdo_enhancement [[(100:ℝ)]] (1/2) 0 = .error .zeroDivisionError := by
    unfold k_cfdo_enhancement
    rw [if_neg (by simp [flatten2]), if_pos rfl]
  refine ⟨h, ?_⟩
  rw [h]
  simp

/-- C2 (amended): calling the enhancement with `k = 0` always fails with a
raised Python error (`ValueError` from `.max()` on an empty buffer,
`ZeroDivisionError` from `(1 - rho)/k` otherwise) rather than silently
producing NaN/Inf; the raised error is never an `InvalidParameter` kind. -/
theorem k0_always_raises (image : List (List ℝ)) (rho : ℝ) :
    ∃ e : PyErr, k_cfdo_enhancement image rho 0 = .error e ∧
      e ≠ .invalidParameter := by
  unfold k_cfdo_enhancement
  by_cases h : flatten2 image = []
  · exact ⟨.valueError, by rw [if_pos h], by simp⟩
  · exact ⟨.zeroDivisionError, by rw [if_neg h, if_pos rfl], by simp⟩

/-- Helper: the normalization step of a constant buffer produces the silent
NaN marker at every entry (`max - min = 0`, so every entry is `0 / 0`). -/
theorem normalizeStep_constant {enh : List (List ℝ)} {c : ℝ}
    (hc : ∀ x ∈ flatten2 enh, x = c) (hmem : c ∈ flatten2 enh) :
    normalizeStep enh = enh.map (List.map (fun _ => (none : Option ℝ))) := by
  have hmn : listMin (flatten2 enh) = c :=
    hc _ (listMin_mem (List.ne_nil_of_mem hmem))
  have hmx : listMax (flatten2 enh) = c :=
    hc _ (listMax_mem (List.ne_nil_of_mem hmem))
  unfold normalizeStep
  rw [hmn, hmx, sub_self]
  simp [npdiv]

/-- C3 (code bug): on the constant buffer with all samples 100 no exception is
raised, but the normalization denominator `max - min` is zero, every entry of
the normalized buffer is the silently produced NaN (`0/0`), and the returned
buffer is the undefined `uint8` cast of NaN at every position — there is no
fallback. -/
theorem constant_image_propagates_nan :
    k_cfdo_enhancement [[(100:ℝ), 100], [100, 100]] (1/2) (3/2) =
      .ok [[none, none], [none, none]] := by
  have hne : flatten2 [[(100:ℝ), 100], [100, 100]] ≠ [] := by simp [flatten2]
  have hgt : listMax (flatten2 [[(100:ℝ), 100], [100, 100]]) > 1 := by
    show max (max (max (100:ℝ) 100) 100) 100 > 1
    norm_num
  have hbuf : enhancedBuf [[(100:ℝ), 100], [100, 100]] (1/2) (3/2) =
      [[pixelEnhance (1/2) (3/2) ((100:ℝ)/255), pixelEnhance (1/2) (3/2) ((100:ℝ)/255)],
       [pixelEnhance (1/2) (3/2) ((100:ℝ)/255), pixelEnhance (1/2) (3/2) ((100:ℝ)/255)]] := by
    unfold enhancedBuf toWorking
    rw [if_pos hgt]
    rfl
  rw [k_cfdo_eq_ok hne (by norm_num), hbuf, normalizeStep_constant
    (c := pixelEnhance (1/2) (3/2) ((100:ℝ)/255))
    (by intro x hx; simp [flatten2] at hx; simpa using hx)
    (by simp [flatten2])]
  rfl

/-- C6: when the enhanced buffer maximum differs from its minimum, the
normalization step maps each value `x` to `(x - min)/(max - min)`, and the
resulting values have minimum exactly 0 and maximum exactly 1. -/
theorem normalize_min_zero_max_one (enh : List (List ℝ))
    (hne : flatten2 enh ≠ [])
    (hd : listMin (flatten2 enh) ≠ listMax (flatten2 enh)) :
    normalizeStep enh = enh.map (List.map (fun x =>
        some ((x - listMin (flatten2 enh)) /
          (listMax (flatten2 enh) - listMin (flatten2 enh))))) ∧
    listMin ((flatten2 enh).map (fun x =>
        (x - listMin (flatten2 enh)) /
          (listMax (flatten2 enh) - listMin (flatten2 enh)))) = 0 ∧
    listMax ((flatten2 enh).map (fun x =>
        (x - listMin (flatten2 enh)) /
          (listMax (flatten2 enh) - listMin (flatten2 enh)))) = 1 := by
  have hlt : listMin (flatten2 enh) < listMax (flatten2 enh) :=
    lt_of_le_of_ne (listMin_le_listMax hne) hd
  have hpos : 0 < listMax (flatten2 enh) - listMin (flatten2 enh) :=
    sub_pos.mpr hlt
  have hz : listMax (flatten2 enh) - listMin (flatten2 enh) ≠ 0 := hpos.ne'
  have hmono : Monotone (fun x : ℝ =>
      (x - listMin (flatten2 enh)) /
        (listMax (flatten2 enh) - listMin (flatten2 enh))) :=
    fun a b hab => (div_le_div_iff_of_pos_right hpos).mpr (sub_le_sub_right hab _)
  refine ⟨?_, ?_, ?_⟩
  · unfold normalizeStep
    simp [npdiv, hz]
  · rw [listMin_map hmono hne, sub_self, zero_div]
  · rw [listMax_map hmono hne, div_self hz]

theorem normalize_min_zero_max_one_witness :
    (normalizeStep [[(0:ℝ), 2]] = [[(0:ℝ), 2]].map (List.map (fun x =>
        some ((x - listMin (flatten2 [[(0:ℝ), 2]])) /
          (listMax (flatten2 [[(0:ℝ), 2]]) - listMin (flatten2 [[(0:ℝ), 2]])))))) ∧
    listMin ((flatten2 [[(0:ℝ), 2]]).map (fun x =>
        (x - listMin (flatten2 [[(0:ℝ), 2]])) /
          (listMax (flatten2 [[(0:ℝ), 2]]) - listMin (flatten2 [[(0:ℝ), 2]])))) = 0 ∧
    listMax ((flatten2 [[(0:ℝ), 2]]).map (fun x =>
        (x - listMin (flatten2 [[(0:ℝ), 2]])) /
          (listMax (flatten2 [[(0:ℝ), 2]]) - listMin (flatten2 [[(0:ℝ), 2]])))) = 1 :=
  normalize_min_zero_max_one [[(0:ℝ), 2]] (by simp [flatten2])
    (by
      show min (0:ℝ) 2 ≠ max (0:ℝ) 2
      rw [min_eq_left (by norm_num : (0:ℝ) ≤ 2),
        max_eq_right (by norm_num : (0:ℝ) ≤ 2)]
      norm_num)

/-- Helper: the flattened returned buffer is the flattened enhanced buffer
mapped through normalization and the `uint8` cast. -/
theorem flatten2_out_eq (image : List (List ℝ)) (rho k : ℝ) :
    flatten2 ((normalizeStep (enhancedBuf image rho k)).map (List.map toUint8)) =
      ((flatten2 (enhancedBuf image rho k)).map (fun x =>
        npdiv (x - listMin (flatten2 (enhancedBuf image rho k)))
          (listMax (flatten2 (enhancedBuf image rho k)) -
            listMin (flatten2 (enhancedBuf image rho k))))).map toUint8 := by
  rw [flatten2_map]
  unfold normalizeStep
  rw [flatten2_map]

/-- Helper: every entry of the returned buffer is the `uint8` cast of the
normalization of some entry of the enhanced buffer. -/
theorem out_entry_form {image : List (List ℝ)} {rho k : ℝ} {v : Option ℕ}
    (hv : v ∈ flatten2 ((normalizeStep (enhancedBuf image rho k)).map
      (List.map toUint8))) :
    ∃ x ∈ flatten2 (enhancedBuf image rho k),
      v = toUint8 (npdiv (x - listMin (flatten2 (enhancedBuf image rho k)))
        (listMax (flatten2 (enhancedBuf image rho k)) -
          listMin (flatten2 (enhancedBuf image rho k)))) := by
  rw [flatten2_out_eq, List.map_map] at hv
  obtain ⟨x, hx, hxv⟩ := List.mem_map.mp hv
  exact ⟨x, hx, hxv.symm⟩

/-- C7: for a nonempty input, a nonzero `k`, and a non-constant enhanced
buffer, the call returns a buffer in which every sample is a defined unsigned
value lying in `[0, 255]`. -/
theorem output_samples_in_range (image : List (List ℝ)) (rho k : ℝ)
    (hne : flatten2 image ≠ []) (hk : k ≠ 0)
    (hd : listMin (flatten2 (enhancedBuf image rho k)) ≠
      listMax (flatten2 (enhancedBuf image rho k))) :
    ∃ out, k_cfdo_enhancement image rho k = .ok out ∧
      ∀ row ∈ out, ∀ v ∈ row, ∃ nv : ℕ, v = some nv ∧ nv ≤ 255 := by
  refine ⟨_, k_cfdo_eq_ok hne hk, ?_⟩
  intro row hrow v hv
  obtain ⟨x, hx, hform⟩ := out_entry_form (List.mem_flatten.mpr ⟨row, hrow, hv⟩)
  have hz : listMax (flatten2 (enhancedBuf image rho k)) -
      listMin (flatten2 (enhancedBuf image rho k)) ≠ 0 :=
    sub_ne_zero.mpr (Ne.symm hd)
  have hg : npdiv (x - listMin (flatten2 (enhancedBuf image rho k)))
      (listMax (flatten2 (enhancedBuf image rho k)) -
        listMin (flatten2 (enhancedBuf image rho k))) =
      some ((x - listMin (flatten2 (enhancedBuf image rho k))) /
        (listMax (flatten2 (enhancedBuf image rho k)) -
          listMin (flatten2 (enhancedBuf image rho k)))) := by
    unfold npdiv
    rw [if_neg hz]
  have hb := normalized_entry_bounds (flatten2_enhancedBuf_ne_nil hne) hx hg
  rw [hg] at hform
  refine ⟨Int.toNat ⌊((x - listMin (flatten2 (enhancedBuf image rho k))) /
    (listMax (flatten2 (enhancedBuf image rho k)) -
      listMin (flatten2 (enhancedBuf image rho k)))) * 255⌋, ?_, ?_⟩
  · rw [hform]
    rfl
  · exact toUint8_some_le hb.2 rfl

/-- Helper: the enhanced buffer of the demonstration image `[[0, 255]]` with
the default parameters, computed in closed form. -/
theorem demoBuf : enhancedBuf [[(0:ℝ), 255]] (1/2) (3/2) =
    [[0, 1 / Real.Gamma (5/3)]] := by
  unfold enhancedBuf toWorking
  rw [if_pos (show listMax (flatten2 [[(0:ℝ), 255]]) > 1 by
    show max (0:ℝ) 255 > 1
    rw [max_eq_right (by norm_num : (0:ℝ) ≤ 255)]
    norm_num)]
  show [[pixelEnhance (1/2) (3/2) ((0:ℝ)/255), pixelEnhance (1/2) (3/2) ((255:ℝ)/255)]] =
    [[0, 1 / Real.Gamma (5/3)]]
  rw [show (0:ℝ)/255 = 0 from zero_div 255,
    show (255:ℝ)/255 = 1 from div_self (by norm_num)]
  unfold pixelEnhance
  rw [zero_mul, Real.one_rpow, one_mul]
  norm_num

/-- Helper: the demonstration image has a non-constant enhanced buffer, since
`Γ(5/3) > 0` makes `1/Γ(5/3)` positive. -/
theorem demoBuf_not_constant :
    listMin (flatten2 (enhancedBuf [[(0:ℝ), 255]] (1/2) (3/2))) ≠
      listMax (flatten2 (enhancedBuf [[(0:ℝ), 255]] (1/2) (3/2))) := by
  rw [demoBuf]
  show min (0:ℝ) (1 / Real.Gamma (5/3)) ≠ max (0:ℝ) (1 / Real.Gamma (5/3))
  have hc : 0 < 1 / Real.Gamma (5/3) :=
    div_pos one_pos (Real.Gamma_pos_of_pos (by norm_num))
  rw [min_eq_left hc.le, max_eq_right hc.le]
  exact hc.ne

theorem output_samples_in_range_witness :
    ∃ out, k_cfdo_enhancement [[(0:ℝ), 255]] (1/2) (3/2) = .ok out ∧
      ∀ row ∈ out, ∀ v ∈ row, ∃ nv : ℕ, v = some nv ∧ nv ≤ 255 :=
  output_samples_in_range [[(0:ℝ), 255]] (1/2) (3/2)
    (by simp [flatten2]) (by norm_num) demoBuf_not_constant

/-! ### Shape lemmas -/

theorem getElem?_len_map {α β : Type} (f : α → β) (L : List (List α)) (i : ℕ) :
    ((L.map (List.map f))[i]?).map List.length = (L[i]?).map List.length := by
  rw [List.getElem?_map, Option.map_map]
  congr 1
  funext r
  simp

theorem toWorking_length (image : List (List ℝ)) :
    (toWorking image).length = image.length := by
  unfold toWorking
  split <;> simp

theorem toWorking_row_lengths (image : List (List ℝ)) (i : ℕ) :
    ((toWorking image)[i]?).map List.length = (image[i]?).map List.length := by
  unfold toWorking
  split
  · exact getElem?_len_map _ _ _
  · rfl

/-- Helper: every defined entry of the returned buffer fits in `uint8`. -/
theorem output_defined_entries_le_255 (image : List (List ℝ)) (rho k : ℝ)
    (hne : flatten2 image ≠ []) :
    ∀ row ∈ (normalizeStep (enhancedBuf image rho k)).map (List.map toUint8),
      ∀ v ∈ row, ∀ nv : ℕ, v = some nv → nv ≤ 255 := by
  intro row hrow v hv nv hnv
  obtain ⟨x, hx, hform⟩ := out_entry_form (List.mem_flatten.mpr ⟨row, hrow, hv⟩)
  cases hg : npdiv (x - listMin (flatten2 (enhancedBuf image rho k)))
      (listMax (flatten2 (enhancedBuf image rho k)) -
        listMin (flatten2 (enhancedBuf image rho k))) with
  | none =>
      rw [hg, hnv] at hform
      exact absurd hform (by simp [toUint8])
  | some t =>
      rw [hg, hnv] at hform
      have hb := normalized_entry_bounds (flatten2_enhancedBuf_ne_nil hne) hx hg
      exact toUint8_some_le hb.2 hform.symm

/-- C8: for every nonempty 2-D input buffer and nonzero `k`, the returned
buffer has the same number of rows, each row has the same length as the
corresponding input row, and every defined sample fits in unsigned 8 bits. -/
theorem output_shape_preserved (image : List (List ℝ)) (rho k : ℝ)
    (hne : flatten2 image ≠ []) (hk : k ≠ 0) :
    ∃ out, k_cfdo_enhancement image rho k = .ok out ∧
      out.length = image.length ∧
      (∀ i : ℕ, (out[i]?).map List.length = (image[i]?).map List.length) ∧
      ∀ row ∈ out, ∀ v ∈ row, ∀ nv : ℕ, v = some nv → nv ≤ 255 := by
  refine ⟨_, k_cfdo_eq_ok hne hk, ?_, ?_, output_defined_entries_le_255 image rho k hne⟩
  · unfold normalizeStep enhancedBuf
    simp [toWorking_length]
  · intro i
    unfold normalizeStep enhancedBuf
    rw [getElem?_len_map, getElem?_len_map, getElem?_len_map]
    exact toWorking_row_lengths image i

theorem output_shape_preserved_witness :
    ∃ out, k_cfdo_enhancement [[(1:ℝ), 2], [3, 4]] (1/2) (3/2) = .ok out ∧
      out.length = ([[(1:ℝ), 2], [3, 4]] : List (List ℝ)).length ∧
      (∀ i : ℕ, (out[i]?).map List.length =
        (([[(1:ℝ), 2], [3, 4]] : List (List ℝ))[i]?).map List.length) ∧
      ∀ row ∈ out, ∀ v ∈ row, ∀ nv : ℕ, v = some nv → nv ≤ 255 :=
  output_shape_preserved [[(1:ℝ), 2], [3, 4]] (1/2) (3/2)
    (by simp [flatten2]) (by norm_num)

/-- C10: whenever the pre-normalization enhanced values are not all equal, the
returned buffer attains both extremes: the sample at the position of the
enhanced minimum is 0 and the sample at the position of the enhanced maximum
is 255. -/
theorem output_attains_extremes (image : List (List ℝ)) (rho k : ℝ)
    (hne : flatten2 image ≠ []) (hk : k ≠ 0)
    (hd : listMin (flatten2 (enhancedBuf image rho k)) ≠
      listMax (flatten2 (enhancedBuf image rho k))) :
    ∃ out, k_cfdo_enhancement image rho k = .ok out ∧
      some 0 ∈ flatten2 out ∧ some 255 ∈ flatten2 out := by
  have henh : flatten2 (enhancedBuf image rho k) ≠ [] :=
    flatten2_enhancedBuf_ne_nil hne
  have hz : listMax (flatten2 (enhancedBuf image rho k)) -
      listMin (flatten2 (enhancedBuf image rho k)) ≠ 0 :=
    sub_ne_zero.mpr (Ne.symm hd)
  refine ⟨_, k_cfdo_eq_ok hne hk, ?_, ?_⟩
  · rw [flatten2_out_eq, List.map_map]
    refine List.mem_map.mpr ⟨listMin (flatten2 (enhancedBuf image rho k)),
      listMin_mem henh, ?_⟩
    show toUint8 (npdiv (listMin (flatten2 (enhancedBuf image rho k)) -
      listMin (flatten2 (enhancedBuf image rho k)))
      (listMax (flatten2 (enhancedBuf image rho k)) -
        listMin (flatten2 (enhancedBuf image rho k)))) = some 0
    unfold npdiv
    rw [if_neg hz]
    simp [toUint8]
  · rw [flatten2_out_eq, List.map_map]
    refine List.mem_map.mpr ⟨listMax (flatten2 (enhancedBuf image rho k)),
      listMax_mem henh, ?_⟩
    show toUint8 (npdiv (listMax (flatten2 (enhancedBuf image rho k)) -
      listMin (flatten2 (enhancedBuf image rho k)))
      (listMax (flatten2 (enhancedBuf image rho k)) -
        listMin (flatten2 (enhancedBuf image rho k)))) = some 255
    unfold npdiv
    rw [if_neg hz, div_self hz]
    norm_num [toUint8]
    rfl

theorem output_attains_extremes_witness :
    ∃ out, k_cfdo_enhancement [[(0:ℝ), 255]] (1/2) (3/2) = .ok out ∧
      some 0 ∈ flatten2 out ∧ some 255 ∈ flatten2 out :=
  output_attains_extremes [[(0:ℝ), 255]] (1/2) (3/2)
    (by simp [flatten2]) (by norm_num) demoBuf_not_constant

/-- C4 (code bug): on the all-zero buffer the pre-normalization enhanced
buffer is all-zero (as the specification reasons), hence constant, so the
normalization step silently produces NaN at every entry and the returned
buffer is the undefined `uint8` cast of NaN everywhere — not an all-zero
buffer and not NaN-free. -/
theorem all_zero_image_propagates_nan :
    enhancedBuf [[(0:ℝ), 0], [0, 0]] (1/2) (3/2) = [[0, 0], [0, 0]] ∧
    k_cfdo_enhancement [[(0:ℝ), 0], [0, 0]] (1/2) (3/2) =
      .ok [[none, none], [none, none]] := by
  have hne : flatten2 [[(0:ℝ), 0], [0, 0]] ≠ [] := by simp [flatten2]
  have hle : ¬ listMax (flatten2 [[(0:ℝ), 0], [0, 0]]) > 1 := by
    show ¬ max (max (max (0:ℝ) 0) 0) 0 > 1
    simp [max_self]
  have hbuf : enhancedBuf [[(0:ℝ), 0], [0, 0]] (1/2) (3/2) = [[0, 0], [0, 0]] := by
    unfold enhancedBuf toWorking
    rw [if_neg hle]
    show [[pixelEnhance (1/2) (3/2) (0:ℝ), pixelEnhance (1/2) (3/2) (0:ℝ)],
      [pixelEnhance (1/2) (3/2) (0:ℝ), pixelEnhance (1/2) (3/2) (0:ℝ)]] = [[0, 0], [0, 0]]
    rw [show pixelEnhance (1/2) (3/2) (0:ℝ) = 0 from zero_mul _]
  refine ⟨hbuf, ?_⟩
  rw [k_cfdo_eq_ok hne (by norm_num), hbuf, normalizeStep_constant
    (c := (0:ℝ))
    (by intro x hx; simp [flatten2] at hx; simpa using hx)
    (by simp [flatten2])]
  rfl
